import Mathlib

/-!
Verification of the sequential two-provider chat orchestrator.

The embedding models the repository as follows.

Source: src/core/orchestrator.py, src/main.py.

The two provider handlers (src/core/handlers/deepseek.py and
src/core/handlers/moonshot.py) wrap outbound HTTP calls; their observable
contract at the orchestrator boundary is a function from the input message
to either a response text or a raised error.  They are therefore modelled
as oracle functions in an environment record, together with the wall clock
read by time.time() and the timestamp source datetime.utcnow().  Successive
time.time() calls are modelled as readings clock 0, clock 1, ... in the
order the source performs them; likewise utcnow 0, utcnow 1, ... for the
timestamp calls.  Durations and clock readings are rationals.
-/

/-- Environment of external effects seen by the orchestrator: the two
provider handlers (process_message of DeepSeekHandler and MoonshotHandler,
returning either response text or a raised error message), the wall clock
(k-th time.time() call in evaluation order returns clock k) and the
timestamp source (k-th datetime.utcnow().isoformat() returns utcnow k). -/
structure Env where
  deepseek : String → Except String String
  moonshot : String → Except String String
  clock : Nat → ℚ
  utcnow : Nat → String

/-- Entry of the model_outputs dict built by
AIChatOrchestrator.process_message (src/core/orchestrator.py lines 30-36,
45-51, 70-76). -/
structure ModelOutputR where
  content : String
  processing_time : ℚ
  token_count : Nat
  model_name : String
  timestamp : String
deriving DecidableEq, Repr

/-- Return value of AIChatOrchestrator.process_message (src/core/orchestrator.py
lines 55-59, 79-83).  The model_outputs dict is an insertion-ordered
association list with distinct keys. -/
structure ChatResult where
  primary_response : String
  model_outputs : List (String × ModelOutputR)
  total_processing_time : ℚ
deriving DecidableEq, Repr

/-- The RuntimeError raised at src/core/orchestrator.py line 86:
raise RuntimeError("Both primary and fallback processing failed") from e.
In Python the raised exception object carries the primary error e as
dunder cause (the from clause) and the fallback error as dunder context
(the exception being handled when the raise runs). -/
structure OrchError where
  message : String
  cause : String
  ctx : String
deriving DecidableEq, Repr

/-- Splitting a character list at every whitespace character, keeping the
(possibly empty) fragments between consecutive separators. -/
def splitOnWs : List Char → List (List Char)
  | [] => [[]]
  | c :: rest =>
    if c.isWhitespace then [] :: splitOnWs rest
    else match splitOnWs rest with
         | [] => [[c]]
         | t :: ts => (c :: t) :: ts

/-- Token counting used for every model_outputs entry:
len(content.split()) in Python splits at whitespace and drops the empty
fragments, so it counts the maximal whitespace-delimited tokens
(src/core/orchestrator.py lines 33, 48, 73). -/
def tokenCount (s : String) : Nat :=
  ((splitOnWs s.data).filter (fun t => !t.isEmpty)).length

/-- AIChatOrchestrator.process_message (src/core/orchestrator.py lines 18-86).
Clock indices follow the order of time.time() calls on each control path:
success path reads start_time (0), deepseek_start (1), after deepseek (2),
moonshot_start (3), after moonshot (4), total (5); when deepseek raises the
reads are start_time (0), deepseek_start (1), fallback_start (2), after
fallback (3), total (4); when moonshot raises after a successful deepseek
call they are 0-2 as on the success path, moonshot_start (3),
fallback_start (4), after fallback (5), total (6). -/
def process_message (env : Env) (message : String) : Except OrchError ChatResult :=
  match env.deepseek message with
  | .ok deepseek_result =>
    let deepseek_time := env.clock 2 - env.clock 1
    let dsOut : ModelOutputR :=
      ⟨deepseek_result, deepseek_time, tokenCount deepseek_result,
       "deepseek-reasoner", env.utcnow 0⟩
    match env.moonshot deepseek_result with
    | .ok moonshot_result =>
      let moonshot_time := env.clock 4 - env.clock 3
      let msOut : ModelOutputR :=
        ⟨moonshot_result, moonshot_time, tokenCount moonshot_result,
         "moonshot-v1-8k", env.utcnow 1⟩
      .ok ⟨moonshot_result,
           [("deepseek", dsOut), ("moonshot", msOut)],
           env.clock 5 - env.clock 0⟩
    | .error e =>
      match env.moonshot message with
      | .ok fallback_result =>
        let fallback_time := env.clock 5 - env.clock 4
        let fbOut : ModelOutputR :=
          ⟨fallback_result, fallback_time, tokenCount fallback_result,
           "moonshot-v1-8k", env.utcnow 1⟩
        .ok ⟨fallback_result,
             [("deepseek", dsOut), ("moonshot", fbOut)],
             env.clock 6 - env.clock 0⟩
      | .error fe => .error ⟨"Both primary and fallback processing failed", e, fe⟩
  | .error e =>
    match env.moonshot message with
    | .ok fallback_result =>
      let fallback_time := env.clock 3 - env.clock 2
      let fbOut : ModelOutputR :=
        ⟨fallback_result, fallback_time, tokenCount fallback_result,
         "moonshot-v1-8k", env.utcnow 0⟩
      .ok ⟨fallback_result,
           [("moonshot", fbOut)],
           env.clock 4 - env.clock 0⟩
    | .error fe => .error ⟨"Both primary and fallback processing failed", e, fe⟩

/-- Sum of the processing_time fields of all model_outputs entries of a
result. -/
def sumProcessingTimes (r : ChatResult) : ℚ :=
  (r.model_outputs.map (fun p => p.2.processing_time)).sum

/-- Concrete environment used for witnesses: both providers echo their
input with a marker, the clock ticks 0, 1, 2, ... . -/
def envOk : Env :=
  ⟨fun s => .ok (s ++ " reasoned"), fun s => .ok (s ++ " refined"),
   fun k => (k : ℚ), fun _ => "2025-01-01T00:00:00"⟩

/-- Concrete environment in which the deepseek handler raises and the
moonshot handler succeeds. -/
def envDsFail : Env :=
  ⟨fun _ => .error "boom", fun s => .ok (s ++ " refined"),
   fun k => (k : ℚ), fun _ => "2025-01-01T00:00:00"⟩

/-- Concrete environment in which both handlers raise. -/
def envBothFail : Env :=
  ⟨fun _ => .error "boom", fun _ => .error "crash",
   fun k => (k : ℚ), fun _ => "2025-01-01T00:00:00"⟩

/-- Concrete environment in which deepseek succeeds, moonshot raises on the
deepseek output but succeeds on the original message. -/
def envMsFailOnRefine : Env :=
  ⟨fun s => .ok (s ++ " reasoned"),
   fun s => if s = "hi" then .ok "direct answer" else .error "crash",
   fun k => (k : ℚ), fun _ => "2025-01-01T00:00:00"⟩

/-- Claim C1: for every input message, if both the DeepSeek call and the
Moonshot call succeed, the result has primary_response equal to the
refinement output computed on the reasoning output
(response = B(A(message))), and model_outputs has a deepseek entry with
content A(message) and a moonshot entry with content B(A(message)). -/
theorem composition_on_success (env : Env) (message a bta : String)
    (hA : env.deepseek message = .ok a) (hB : env.moonshot a = .ok bta) :
    ∃ r, process_message env message = .ok r ∧
      r.primary_response = bta ∧
      (∃ o, r.model_outputs.lookup "deepseek" = some o ∧ o.content = a) ∧
      (∃ o, r.model_outputs.lookup "moonshot" = some o ∧ o.content = bta) := by
  simp only [process_message, hA, hB]
  exact ⟨_, rfl, rfl, ⟨_, rfl, rfl⟩, ⟨_, rfl, rfl⟩⟩

theorem composition_on_success_witness :
    ∃ r, process_message envOk "hi" = .ok r ∧
      r.primary_response = "hi reasoned refined" ∧
      (∃ o, r.model_outputs.lookup "deepseek" = some o ∧ o.content = "hi reasoned") ∧
      (∃ o, r.model_outputs.lookup "moonshot" = some o ∧
        o.content = "hi reasoned refined") :=
  composition_on_success envOk "hi" "hi reasoned" "hi reasoned refined" rfl rfl

/-- Claim C2: for every input message, if the deepseek call fails and the
fallback succeeds, the orchestrator invokes the moonshot handler directly
on the original message, returns its result as primary_response, and the
model_outputs dict holds exactly the single moonshot entry. -/
theorem fallback_on_reasoning_failure (env : Env) (message e f : String)
    (hA : env.deepseek message = .error e) (hF : env.moonshot message = .ok f) :
    ∃ r, process_message env message = .ok r ∧
      r.primary_response = f ∧
      (∃ o, r.model_outputs = [("moonshot", o)] ∧ o.content = f) := by
  simp only [process_message, hA, hF]
  exact ⟨_, rfl, rfl, ⟨_, rfl, rfl⟩⟩

theorem fallback_on_reasoning_failure_witness :
    ∃ r, process_message envDsFail "hi" = .ok r ∧
      r.primary_response = "hi refined" ∧
      (∃ o, r.model_outputs = [("moonshot", o)] ∧ o.content = "hi refined") :=
  fallback_on_reasoning_failure envDsFail "hi" "boom" "hi refined" rfl rfl

/-- Claim C3: whenever both the primary sequential path and the single
fallback call fail, process_message raises the RuntimeError whose message
is the combined-failure text, whose cause is the primary-path error and
whose context is the fallback error; no ChatResult (in particular none with
empty content) is returned on this path. -/
theorem combined_failure_on_double_fault (env : Env) (message e fe : String)
    (h : (env.deepseek message = .error e ∧ env.moonshot message = .error fe) ∨
         (∃ d, env.deepseek message = .ok d ∧ env.moonshot d = .error e ∧
               env.moonshot message = .error fe)) :
    process_message env message =
      .error ⟨"Both primary and fallback processing failed", e, fe⟩ := by
  rcases h with ⟨h1, h2⟩ | ⟨d, h1, h2, h3⟩
  · simp only [process_message, h1, h2]
  · simp only [process_message, h1, h2, h3]

theorem combined_failure_on_double_fault_witness :
    process_message envBothFail "hi" =
      .error ⟨"Both primary and fallback processing failed", "boom", "crash"⟩ :=
  combined_failure_on_double_fault envBothFail "hi" "boom" "crash"
    (Or.inl ⟨rfl, rfl⟩)

/-- Claim C4, counterexample: with the ticking clock clock k = k and both
providers succeeding, total_processing_time is 5 - 0 = 5 while the summed
processing times are (2 - 1) + (4 - 3) = 2, because the source computes
total_time = time.time() - start_time, which also counts the time spent
outside the two handler calls. -/
theorem total_time_sum_cex :
    (process_message envOk "hi").map (fun r => r.total_processing_time) = .ok 5 ∧
    (process_message envOk "hi").map sumProcessingTimes = .ok 2 ∧
    (5 : ℚ) ≠ 2 := by
  refine ⟨?_, ?_, by norm_num⟩
  · simp only [process_message, envOk, Except.map]
    norm_num
  · simp only [process_message, envOk, Except.map, sumProcessingTimes]
    norm_num

/-- Claim C4, amended: on the success path total_processing_time is the
overall elapsed time of the call, final clock reading minus starting clock
reading; since the wall clock is monotone it is at least (in general not
equal to) the sum of the two model_outputs processing_time values. -/
theorem total_time_is_elapsed (env : Env) (message a bta : String)
    (hA : env.deepseek message = .ok a) (hB : env.moonshot a = .ok bta)
    (hmono : Monotone env.clock) :
    ∃ r, process_message env message = .ok r ∧
      r.total_processing_time = env.clock 5 - env.clock 0 ∧
      sumProcessingTimes r ≤ r.total_processing_time := by
  simp only [process_message, hA, hB]
  refine ⟨_, rfl, rfl, ?_⟩
  have h01 : env.clock 0 ≤ env.clock 1 := hmono (by omega)
  have h23 : env.clock 2 ≤ env.clock 3 := hmono (by omega)
  have h45 : env.clock 4 ≤ env.clock 5 := hmono (by omega)
  simp only [sumProcessingTimes, List.map, List.sum_cons, List.sum_nil]
  linarith

theorem total_time_is_elapsed_witness :
    ∃ r, process_message envOk "hi" = .ok r ∧
      r.total_processing_time = envOk.clock 5 - envOk.clock 0 ∧
      sumProcessingTimes r ≤ r.total_processing_time :=
  total_time_is_elapsed envOk "hi" "hi reasoned" "hi reasoned refined" rfl rfl
    (fun _ _ h => by simpa using Nat.cast_le.mpr h)

/-- Claim C5: every model_outputs entry any successful orchestrator result
contains has token_count equal to the number of whitespace-delimited tokens
of its content (the len(content.split()) convention of the source). -/
theorem token_count_is_whitespace_tokens (env : Env) (message : String)
    (r : ChatResult) (name : String) (o : ModelOutputR)
    (hr : process_message env message = .ok r)
    (hmem : (name, o) ∈ r.model_outputs) :
    o.token_count = tokenCount o.content := by
  unfold process_message at hr
  rcases hds : env.deepseek message with e | d
  · simp only [hds] at hr
    rcases hms : env.moonshot message with fe | f
    · simp only [hms] at hr
      exact Except.noConfusion hr
    · simp only [hms, Except.ok.injEq] at hr
      subst hr
      simp only [List.mem_singleton, Prod.mk.injEq] at hmem
      obtain ⟨-, h⟩ := hmem
      subst h
      rfl
  · simp only [hds] at hr
    rcases hms : env.moonshot d with e | m
    · simp only [hms] at hr
      rcases hfb : env.moonshot message with fe | f
      · simp only [hfb] at hr
        exact Except.noConfusion hr
      · simp only [hfb, Except.ok.injEq] at hr
        subst hr
        simp only [List.mem_cons, List.mem_singleton, Prod.mk.injEq,
          List.not_mem_nil, or_false] at hmem
        rcases hmem with ⟨-, h⟩ | ⟨-, h⟩ <;> subst h <;> rfl
    · simp only [hms, Except.ok.injEq] at hr
      subst hr
      simp only [List.mem_cons, List.mem_singleton, Prod.mk.injEq,
        List.not_mem_nil, or_false] at hmem
      rcases hmem with ⟨-, h⟩ | ⟨-, h⟩ <;> subst h <;> rfl

theorem token_count_is_whitespace_tokens_witness :
    (⟨"hi reasoned", envOk.clock 2 - envOk.clock 1, 2, "deepseek-reasoner",
      "2025-01-01T00:00:00"⟩ : ModelOutputR).token_count =
      tokenCount "hi reasoned" :=
  token_count_is_whitespace_tokens envOk "hi"
    ⟨"hi reasoned refined",
     [("deepseek", ⟨"hi reasoned", envOk.clock 2 - envOk.clock 1, 2,
        "deepseek-reasoner", "2025-01-01T00:00:00"⟩),
      ("moonshot", ⟨"hi reasoned refined", envOk.clock 4 - envOk.clock 3, 3,
        "moonshot-v1-8k", "2025-01-01T00:00:00"⟩)],
     envOk.clock 5 - envOk.clock 0⟩
    "deepseek"
    ⟨"hi reasoned", envOk.clock 2 - envOk.clock 1, 2, "deepseek-reasoner",
      "2025-01-01T00:00:00"⟩
    (by rfl) (List.mem_cons_self _ _)

/-- Claim C8: if deepseek succeeds, the moonshot refinement call on the
deepseek output fails, and the fallback moonshot call on the original
message succeeds, then the result keeps the deepseek entry (content
A(message)), its moonshot entry holds the fallback content B(message)
computed on the original message, there are exactly these two entries, and
primary_response is the fallback content. -/
theorem fallback_after_refinement_failure (env : Env) (message a e f : String)
    (hA : env.deepseek message = .ok a) (hB : env.moonshot a = .error e)
    (hF : env.moonshot message = .ok f) :
    ∃ r, process_message env message = .ok r ∧
      r.primary_response = f ∧
      r.model_outputs.length = 2 ∧
      (∃ o, r.model_outputs.lookup "deepseek" = some o ∧ o.content = a) ∧
      (∃ o, r.model_outputs.lookup "moonshot" = some o ∧ o.content = f) := by
  simp only [process_message, hA, hB, hF]
  exact ⟨_, rfl, rfl, rfl, ⟨_, rfl, rfl⟩, ⟨_, rfl, rfl⟩⟩

theorem fallback_after_refinement_failure_witness :
    ∃ r, process_message envMsFailOnRefine "hi" = .ok r ∧
      r.primary_response = "direct answer" ∧
      r.model_outputs.length = 2 ∧
      (∃ o, r.model_outputs.lookup "deepseek" = some o ∧
        o.content = "hi reasoned") ∧
      (∃ o, r.model_outputs.lookup "moonshot" = some o ∧
        o.content = "direct answer") :=
  fallback_after_refinement_failure envMsFailOnRefine "hi" "hi reasoned"
    "crash" "direct answer" rfl rfl rfl

/-!
Streaming endpoint, src/main.py lines 115-162.  The generator
stream_chat_response yields newline-delimited JSON events; the events are
modelled abstractly.  It calls orchestrator.deepseek_handler.process_message
and orchestrator.moonshot_handler.process_message directly, never
AIChatOrchestrator.process_message, so it has no fallback: any raised
error is caught by the single try/except around the whole generator body,
which yields one error event and ends the stream.
-/

/-- Events emitted by stream_chat_response (src/main.py lines 119-162). -/
inductive Event where
  | status (model : String)
  | model_output (model content : String)
  | complete
  | error (msg : String)
deriving DecidableEq, Repr

/-- The generator stream_chat_response (src/main.py lines 115-162), as the
list of events it yields: status(deepseek) is yielded first, then the
deepseek handler is awaited; on success its model_output and
status(moonshot) are yielded and the moonshot handler is awaited on the
deepseek output; a raise at either await aborts into the except block,
which yields a single error event. -/
def stream_chat_response (env : Env) (message : String) : List Event :=
  match env.deepseek message with
  | .error e => [.status "deepseek", .error e]
  | .ok deepseek_result =>
    match env.moonshot deepseek_result with
    | .error e =>
      [.status "deepseek", .model_output "deepseek" deepseek_result,
       .status "moonshot", .error e]
    | .ok moonshot_result =>
      [.status "deepseek", .model_output "deepseek" deepseek_result,
       .status "moonshot", .model_output "moonshot" moonshot_result,
       .complete]

/-- Handler invocations, used to record which provider calls a code path
performs and with which input. -/
inductive Call where
  | ds (input : String)
  | ms (input : String)
deriving DecidableEq, Repr

/-- Provider calls performed by stream_chat_response, in order: the
deepseek handler on the message, then (only if it succeeded) the moonshot
handler on the deepseek output.  No other await of a handler occurs in
src/main.py lines 115-162. -/
def stream_trace (env : Env) (message : String) : List Call :=
  match env.deepseek message with
  | .error _ => [.ds message]
  | .ok deepseek_result => [.ds message, .ms deepseek_result]

/-- Provider calls performed by AIChatOrchestrator.process_message, in
order (src/core/orchestrator.py lines 23-86): deepseek on the message;
moonshot on the deepseek output if deepseek succeeded; and the fallback
moonshot call on the original message whenever either of the first two
raised. -/
def process_trace (env : Env) (message : String) : List Call :=
  match env.deepseek message with
  | .ok deepseek_result =>
    match env.moonshot deepseek_result with
    | .ok _ => [.ds message, .ms deepseek_result]
    | .error _ => [.ds message, .ms deepseek_result, .ms message]
  | .error _ => [.ds message, .ms message]

/-- Claim C7: the stream is either the five events
status(deepseek), model_output(deepseek), status(moonshot),
model_output(moonshot), complete in that order, or a strict prefix of that
shape closed by a single error event; and an error event is always the
final event of the stream. -/
theorem stream_event_order (env : Env) (message : String) :
    ((∃ d m, env.deepseek message = .ok d ∧ env.moonshot d = .ok m ∧
        stream_chat_response env message =
          [.status "deepseek", .model_output "deepseek" d,
           .status "moonshot", .model_output "moonshot" m, .complete]) ∨
     (∃ e, env.deepseek message = .error e ∧
        stream_chat_response env message = [.status "deepseek", .error e]) ∨
     (∃ d e, env.deepseek message = .ok d ∧ env.moonshot d = .error e ∧
        stream_chat_response env message =
          [.status "deepseek", .model_output "deepseek" d,
           .status "moonshot", .error e])) ∧
    (∀ e, Event.error e ∈ stream_chat_response env message →
       (stream_chat_response env message).getLast? = some (.error e)) := by
  rcases hds : env.deepseek message with e | d
  · simp only [stream_chat_response, hds]
    refine ⟨Or.inr (Or.inl ⟨e, rfl, rfl⟩), ?_⟩
    intro e' he'
    simp only [List.mem_cons, List.not_mem_nil, or_false] at he'
    rcases he' with h | h
    · exact Event.noConfusion h
    · rw [h]
      rfl
  · rcases hms : env.moonshot d with e | m
    · simp only [stream_chat_response, hds, hms]
      refine ⟨Or.inr (Or.inr ⟨d, e, rfl, hms, rfl⟩), ?_⟩
      intro e' he'
      simp only [List.mem_cons, List.not_mem_nil, or_false] at he'
      rcases he' with h | h | h | h <;> first
        | exact Event.noConfusion h
        | (rw [h]; rfl)
    · simp only [stream_chat_response, hds, hms]
      refine ⟨Or.inl ⟨d, m, rfl, hms, rfl⟩, ?_⟩
      intro e' he'
      simp only [List.mem_cons, List.not_mem_nil, or_false] at he'
      rcases he' with h | h | h | h | h <;> exact Event.noConfusion h

theorem stream_event_order_witness :
    ((∃ d m, envOk.deepseek "hi" = .ok d ∧ envOk.moonshot d = .ok m ∧
        stream_chat_response envOk "hi" =
          [.status "deepseek", .model_output "deepseek" d,
           .status "moonshot", .model_output "moonshot" m, .complete]) ∨
     (∃ e, envOk.deepseek "hi" = .error e ∧
        stream_chat_response envOk "hi" = [.status "deepseek", .error e]) ∨
     (∃ d e, envOk.deepseek "hi" = .ok d ∧ envOk.moonshot d = .error e ∧
        stream_chat_response envOk "hi" =
          [.status "deepseek", .model_output "deepseek" d,
           .status "moonshot", .error e])) ∧
    (∀ e, Event.error e ∈ stream_chat_response envOk "hi" →
       (stream_chat_response envOk "hi").getLast? = some (.error e)) :=
  stream_event_order envOk "hi"

/-- Claim C9: the streaming path never performs the orchestrator fallback.
Its only provider calls are deepseek on the message and, if that
succeeded, moonshot on the deepseek output; when the deepseek call fails
the stream makes no moonshot call at all and ends in a single error event,
although process_message would have gone on to call moonshot on the
original message; when the refinement call fails the stream ends in a
single error event without the fallback moonshot call on the original
message that process_message would have made. -/
theorem stream_bypasses_fallback (env : Env) (message : String) :
    (stream_trace env message = [.ds message] ∨
     (∃ d, env.deepseek message = .ok d ∧
        stream_trace env message = [.ds message, .ms d])) ∧
    (∀ e, env.deepseek message = .error e →
       stream_trace env message = [.ds message] ∧
       stream_chat_response env message = [.status "deepseek", .error e] ∧
       process_trace env message = [.ds message, .ms message]) ∧
    (∀ d e, env.deepseek message = .ok d → env.moonshot d = .error e →
       stream_trace env message = [.ds message, .ms d] ∧
       (stream_chat_response env message).getLast? = some (.error e) ∧
       process_trace env message = [.ds message, .ms d, .ms message]) := by
  refine ⟨?_, ?_, ?_⟩
  · unfold stream_trace
    rcases hds : env.deepseek message with e | d
    · exact Or.inl rfl
    · exact Or.inr ⟨d, rfl, rfl⟩
  · intro e hds
    simp [stream_trace, stream_chat_response, process_trace, hds]
  · intro d e hds hms
    simp [stream_trace, stream_chat_response, process_trace, hds, hms]

theorem stream_bypasses_fallback_witness :
    stream_trace envDsFail "hi" = [.ds "hi"] ∧
    stream_chat_response envDsFail "hi" = [.status "deepseek", .error "boom"] ∧
    process_trace envDsFail "hi" = [.ds "hi", .ms "hi"] :=
  (stream_bypasses_fallback envDsFail "hi").2.1 "boom" rfl

/-!
Comparison endpoint, src/main.py lines 164-209.  It reruns the
orchestrator, reads the deepseek and moonshot entries of model_outputs,
and computes difflib.SequenceMatcher(None, deepseek_content,
moonshot_content).ratio() plus a unified diff truncated to 20 kept lines.

The similarity ratio is embedded below following the CPython difflib
algorithm (Ratcliff-Obershelp): with isjunk = None the junk set bjunk is
empty, and autojunk removes the popular elements (count exceeding
len(b) / 100 + 1 when len(b) is at least 200) from the index map b2j only.
ratio() is 2 * M / T where M is the total size of the matching blocks
found by the recursive find_longest_match decomposition and T the sum of
both lengths, and 1 when T is 0; the float value is represented as a
rational, exact at the values 1.0 and 0.0 the claim is about.  The merging
of adjacent blocks done by get_matching_blocks leaves the size sum M
unchanged, so it is not modelled.  Dictionaries j2len and newj2len are
modelled as total functions that are 0 outside their key set, matching
dict.get(key, 0); the while loops carry an explicit fuel that strictly
exceeds the number of iterations the guards allow, so the fuelled
functions agree with the loops.
-/

/-- Default character returned by list indexing outside its range; every
index the algorithm dereferences is in range. -/
def padChar : Char := ' '

/-- Element popularity for the autojunk heuristic of SequenceMatcher:
with len(b) at least 200, elements with more than len(b) / 100 + 1
occurrences in b are dropped from b2j. -/
def popularB (b : List Char) (c : Char) : Bool :=
  decide (200 ≤ b.length) && decide (b.length / 100 + 1 < b.count c)

/-- Occurrence list b2j.get(c, []): the ascending positions of c in b,
empty when c was purged as popular. -/
def b2jList (b : List Char) (c : Char) : List Nat :=
  if popularB b c then []
  else (List.range b.length).filter (fun j => b.getD j padChar == c)

/-- Junk test isbjunk of find_longest_match: the bjunk set is empty since
the endpoint constructs SequenceMatcher(None, ...) with isjunk = None. -/
def bjunk (_ : Char) : Bool := false

/-- Positions j iterated by the inner loop of find_longest_match at outer
position i: the b2j occurrences of a[i], restricted to blo <= j < bhi
(the continue and break of the source on the ascending list). -/
def jsList (a b : List Char) (blo bhi i : Nat) : List Nat :=
  (b2jList b (a.getD i padChar)).filter
    (fun j => decide (blo ≤ j) && decide (j < bhi))

/-- Running best block of find_longest_match. -/
structure Best where
  besti : Nat
  bestj : Nat
  bestsize : Nat
deriving DecidableEq, Repr

/-- Condition under which newj2len acquires an entry at j during outer
iteration i: j is a b2j occurrence of a[i] (so a[i] = b[j] and a[i] was
not purged as popular) surviving the blo/bhi bounds. -/
def condNew (a b : List Char) (blo bhi i j : Nat) : Prop :=
  j < b.length ∧ blo ≤ j ∧ j < bhi ∧ b.getD j padChar = a.getD i padChar ∧
  popularB b (a.getD i padChar) = false

instance (a b : List Char) (blo bhi i j : Nat) :
    Decidable (condNew a b blo bhi i j) := by
  unfold condNew
  infer_instance

/-- The j2len dictionary of find_longest_match as a total function:
j2l a b alo blo bhi t is the dictionary after the first t outer iterations
(those at positions alo, ..., alo + t - 1), with value 0 at absent keys.
Each outer iteration rebuilds newj2len[j] = j2len.get(j - 1, 0) + 1 at
exactly the positions j of the inner loop. -/
def j2l (a b : List Char) (alo blo bhi : Nat) : Nat → Nat → Nat
  | 0, _ => 0
  | t + 1, j =>
    if condNew a b blo bhi (alo + t) j then
      (if j = 0 then 0 else j2l a b alo blo bhi t (j - 1)) + 1
    else 0

/-- Body of the inner loop of find_longest_match: compute
k = j2len.get(j - 1, 0) + 1 from the previous dictionary and update the
best block when k exceeds it (besti, bestj = i - k + 1, j - k + 1). -/
def innerStep (i : Nat) (prev : Nat → Nat) (st : Best) (j : Nat) : Best :=
  let k := (if j = 0 then 0 else prev (j - 1)) + 1
  if st.bestsize < k then ⟨i + 1 - k, j + 1 - k, k⟩ else st

/-- Inner loop of find_longest_match at outer position i. -/
def innerFold (a b : List Char) (blo bhi i : Nat) (prev : Nat → Nat)
    (st : Best) : Best :=
  (jsList a b blo bhi i).foldl (innerStep i prev) st

/-- Main double loop of find_longest_match: iterate i over
[alo, ahi), threading the j2len dictionary (recomputed functionally by
j2l) and the best block, starting from (alo, blo, 0). -/
def mainBest (a b : List Char) (alo ahi blo bhi : Nat) : Best :=
  (List.range (ahi - alo)).foldl
    (fun st t => innerFold a b blo bhi (alo + t) (j2l a b alo blo bhi t) st)
    ⟨alo, blo, 0⟩

/-- First extension loop: extend the best block backward over matching
non-junk elements. -/
def extendBackNJ (a b : List Char) (alo blo : Nat) : Nat → Best → Best
  | 0, st => st
  | fuel + 1, st =>
    if alo < st.besti ∧ blo < st.bestj ∧
       bjunk (b.getD (st.bestj - 1) padChar) = false ∧
       a.getD (st.besti - 1) padChar = b.getD (st.bestj - 1) padChar then
      extendBackNJ a b alo blo fuel ⟨st.besti - 1, st.bestj - 1, st.bestsize + 1⟩
    else st

/-- Second extension loop: extend the best block forward over matching
non-junk elements. -/
def extendFwdNJ (a b : List Char) (ahi bhi : Nat) : Nat → Best → Best
  | 0, st => st
  | fuel + 1, st =>
    if st.besti + st.bestsize < ahi ∧ st.bestj + st.bestsize < bhi ∧
       bjunk (b.getD (st.bestj + st.bestsize) padChar) = false ∧
       a.getD (st.besti + st.bestsize) padChar =
         b.getD (st.bestj + st.bestsize) padChar then
      extendFwdNJ a b ahi bhi fuel ⟨st.besti, st.bestj, st.bestsize + 1⟩
    else st

/-- Third extension loop: extend backward over matching junk elements. -/
def extendBackJ (a b : List Char) (alo blo : Nat) : Nat → Best → Best
  | 0, st => st
  | fuel + 1, st =>
    if alo < st.besti ∧ blo < st.bestj ∧
       bjunk (b.getD (st.bestj - 1) padChar) = true ∧
       a.getD (st.besti - 1) padChar = b.getD (st.bestj - 1) padChar then
      extendBackJ a b alo blo fuel ⟨st.besti - 1, st.bestj - 1, st.bestsize + 1⟩
    else st

/-- Fourth extension loop: extend forward over matching junk elements. -/
def extendFwdJ (a b : List Char) (ahi bhi : Nat) : Nat → Best → Best
  | 0, st => st
  | fuel + 1, st =>
    if st.besti + st.bestsize < ahi ∧ st.bestj + st.bestsize < bhi ∧
       bjunk (b.getD (st.bestj + st.bestsize) padChar) = true ∧
       a.getD (st.besti + st.bestsize) padChar =
         b.getD (st.bestj + st.bestsize) padChar then
      extendFwdJ a b ahi bhi fuel ⟨st.besti, st.bestj, st.bestsize + 1⟩
    else st

/-- SequenceMatcher.find_longest_match on the slices [alo, ahi) of a and
[blo, bhi) of b: the main double loop followed by the four extension
loops.  The backward loops decrease besti by one per iteration and the
forward loops need fewer than ahi iterations, so the chosen fuels exceed
the iterations the guards allow. -/
def find_longest_match (a b : List Char) (alo ahi blo bhi : Nat) : Best :=
  let st0 := mainBest a b alo ahi blo bhi
  let st1 := extendBackNJ a b alo blo st0.besti st0
  let st2 := extendFwdNJ a b ahi bhi ahi st1
  let st3 := extendBackJ a b alo blo st2.besti st2
  extendFwdJ a b ahi bhi ahi st3

/-- Total size of the matching blocks of get_matching_blocks: the
recursive decomposition around each nonempty longest match.  The fuel
bounds the recursion depth; every recursive call strictly shrinks the slice
pair, so the fuel used at the top level is never exhausted. -/
def matchSumF (a b : List Char) : Nat → Nat → Nat → Nat → Nat → Nat
  | 0, _, _, _, _ => 0
  | fuel + 1, alo, ahi, blo, bhi =>
    let st := find_longest_match a b alo ahi blo bhi
    if st.bestsize = 0 then 0
    else
      matchSumF a b fuel alo st.besti blo st.bestj + st.bestsize +
      matchSumF a b fuel (st.besti + st.bestsize) ahi (st.bestj + st.bestsize) bhi

/-- Sum of matching block sizes over the full sequences, the M of
ratio(). -/
def matchSum (a b : List Char) : Nat :=
  matchSumF a b (a.length + b.length + 1) 0 a.length 0 b.length

/-- SequenceMatcher.ratio(): 2 * M / T where T is the total length, and
1 when T is 0 (difflib._calculate_ratio). -/
def ratioQ (a b : List Char) : ℚ :=
  if a.length + b.length = 0 then 1
  else 2 * (matchSum a b : ℚ) / ((a.length + b.length : Nat) : ℚ)

/-- Response model of the comparison endpoint (src/main.py lines 60-65). -/
structure ComparisonResponse where
  similarity_score : ℚ
  differences : List String
  deepseek_content : String
  moonshot_content : String
  processing_times : List (String × ℚ)

/-- Differences list built at src/main.py lines 180-194: keep the unified
diff lines starting with + or -, stripped, truncated to the first 20. -/
def diffKept (udiff : List String) : List String :=
  ((udiff.filter (fun l => l.startsWith "+" || l.startsWith "-")).map
    (fun l => l.trim)).take 20

/-- The compare_responses endpoint (src/main.py lines 164-209).  The
unified diff line generator difflib.unified_diff is external text
machinery whose content the endpoint only filters and truncates; it is
passed as an oracle.  Any exception inside the body, including the
KeyError from reading a missing deepseek entry of model_outputs and the
RuntimeError from process_message, is caught by the except block, which
raises HTTPException(status_code=500). -/
def compare_responses (env : Env) (udiff : String → String → List String)
    (message : String) : Except Nat ComparisonResponse :=
  match process_message env message with
  | .error _ => .error 500
  | .ok result =>
    match result.model_outputs.lookup "deepseek",
          result.model_outputs.lookup "moonshot" with
    | some d, some m =>
      .ok ⟨ratioQ d.content.data m.content.data,
           diffKept (udiff d.content m.content),
           d.content, m.content,
           [("deepseek", d.processing_time), ("moonshot", m.processing_time)]⟩
    | _, _ => .error 500

/-!
Lemmas about the chain dictionary j2l: values are bounded by the number of
outer iterations and by the distance to blo, a positive value at (t, j)
certifies a matching chain (unroll), and a matching chain forces a value
(build).
-/

lemma j2l_le_t (a b : List Char) (alo blo bhi : Nat) :
    ∀ t j, j2l a b alo blo bhi t j ≤ t := by
  intro t
  induction t with
  | zero => intro j; simp [j2l]
  | succ t ih =>
    intro j
    simp only [j2l]
    split
    · split
      · omega
      · have := ih (j - 1)
        omega
    · omega

lemma j2l_le_j (a b : List Char) (alo blo bhi : Nat) :
    ∀ t j, j2l a b alo blo bhi t j ≤ j + 1 - blo := by
  intro t
  induction t with
  | zero => intro j; simp [j2l]
  | succ t ih =>
    intro j
    simp only [j2l]
    split
    · rename_i hc
      have hblo_j : blo ≤ j := hc.2.1
      split
      · omega
      · have := ih (j - 1)
        omega
    · omega

lemma j2l_unroll (a b : List Char) (alo blo bhi : Nat) :
    ∀ u t j, u < j2l a b alo blo bhi (t + 1) j →
      u ≤ t ∧ u ≤ j ∧ condNew a b blo bhi (alo + (t - u)) (j - u) := by
  intro u
  induction u with
  | zero =>
    intro t j h
    refine ⟨Nat.zero_le _, Nat.zero_le _, ?_⟩
    simp only [j2l] at h
    by_cases hc : condNew a b blo bhi (alo + t) j
    · simpa using hc
    · rw [if_neg hc] at h
      omega
  | succ u ih =>
    intro t j h
    simp only [j2l] at h
    by_cases hc : condNew a b blo bhi (alo + t) j
    · rw [if_pos hc] at h
      have h2 : u < (if j = 0 then 0 else j2l a b alo blo bhi t (j - 1)) := by
        omega
      by_cases hj : j = 0
      · rw [if_pos hj] at h2
        exact absurd h2 (by omega)
      · rw [if_neg hj] at h2
        rcases t with _ | t'
        · simp [j2l] at h2
        · obtain ⟨hut, huj, hcc⟩ := ih t' (j - 1) h2
          refine ⟨by omega, by omega, ?_⟩
          have e1 : t' + 1 - (u + 1) = t' - u := by omega
          have e2 : j - (u + 1) = j - 1 - u := by omega
          rw [e1, e2]
          exact hcc
    · rw [if_neg hc] at h
      omega

lemma j2l_build (a b : List Char) (alo blo bhi : Nat) :
    ∀ v t j, v ≤ t + 1 → v ≤ j + 1 →
      (∀ u, u < v → condNew a b blo bhi (alo + (t - u)) (j - u)) →
      v ≤ j2l a b alo blo bhi (t + 1) j := by
  intro v
  induction v with
  | zero =>
    intro t j _ _ _
    exact Nat.zero_le _
  | succ w ih =>
    intro t j hvt hvj hconds
    have hc0 : condNew a b blo bhi (alo + t) j := by
      simpa using hconds 0 (Nat.succ_pos w)
    simp only [j2l, if_pos hc0]
    rcases Nat.eq_zero_or_pos w with hw | hw
    · omega
    · have hj1 : 1 ≤ j := by omega
      have ht1 : 1 ≤ t := by omega
      rw [if_neg (by omega : ¬ j = 0)]
      have hrec : w ≤ j2l a b alo blo bhi ((t - 1) + 1) (j - 1) := by
        apply ih
        · omega
        · omega
        · intro u hu
          have hcu := hconds (u + 1) (by omega)
          have e1 : t - (u + 1) = (t - 1) - u := by omega
          have e2 : j - (u + 1) = (j - 1) - u := by omega
          rw [e1, e2] at hcu
          exact hcu
      have e3 : (t - 1) + 1 = t := by omega
      rw [e3] at hrec
      omega

/-- Diagonal value: the chain value of the diagonal candidate at position
m, reached during outer iteration m (chain index m + 1 - alo). -/
def dv (a b : List Char) (alo blo bhi m : Nat) : Nat :=
  j2l a b alo blo bhi (m + 1 - alo) m

/-- When the two sequences coincide and the slices are aligned, any chain
value at (t, j) with j at or below the current outer position is dominated
by the diagonal value at j. -/
lemma j2l_le_diag_lt (a b : List Char) (alo blo bhi : Nat)
    (hab : a = b) (hblo : blo = alo) :
    ∀ t j, j ≤ alo + t →
      j2l a b alo blo bhi (t + 1) j ≤ dv a b alo blo bhi j := by
  intro t j hj
  rcases Nat.eq_zero_or_pos (j2l a b alo blo bhi (t + 1) j) with h0 | hpos
  · omega
  · have hU : ∀ u, u < j2l a b alo blo bhi (t + 1) j →
        u ≤ t ∧ u ≤ j ∧ condNew a b blo bhi (alo + (t - u)) (j - u) :=
      fun u hu => j2l_unroll a b alo blo bhi u t j hu
    have hc0 : condNew a b blo bhi (alo + t) j := by
      simpa using (hU 0 hpos).2.2
    have halo_j : alo ≤ j := by
      have := hc0.2.1
      omega
    have hvj : j2l a b alo blo bhi (t + 1) j ≤ j + 1 - alo := by
      have := j2l_le_j a b alo blo bhi (t + 1) j
      omega
    unfold dv
    have e0 : j + 1 - alo = (j - alo) + 1 := by omega
    rw [e0]
    apply j2l_build
    · omega
    · omega
    · intro u hu
      obtain ⟨hut, huj, hcc⟩ := hU u hu
      have hu_le : u ≤ j - alo := by omega
      have e1 : alo + ((j - alo) - u) = j - u := by omega
      rw [e1]
      obtain ⟨h1, h2, h3, h4, h5⟩ := hcc
      refine ⟨h1, h2, h3, by rw [hab], ?_⟩
      have e2 : a.getD (j - u) padChar = a.getD (alo + (t - u)) padChar := by
        conv_lhs => rw [hab]
        exact h4
      rw [e2]
      exact h5

/-- When the two sequences coincide and the slices are aligned, any chain
value at (t, j) with j beyond the current outer position i = alo + t is
dominated by the diagonal value at i, reached in the same iteration. -/
lemma j2l_le_diag_gt (a b : List Char) (alo blo bhi : Nat)
    (hab : a = b) (hblo : blo = alo) :
    ∀ t j, alo + t < j →
      j2l a b alo blo bhi (t + 1) j ≤ j2l a b alo blo bhi (t + 1) (alo + t) := by
  intro t j hj
  rcases Nat.eq_zero_or_pos (j2l a b alo blo bhi (t + 1) j) with h0 | hpos
  · omega
  · have hU : ∀ u, u < j2l a b alo blo bhi (t + 1) j →
        u ≤ t ∧ u ≤ j ∧ condNew a b blo bhi (alo + (t - u)) (j - u) :=
      fun u hu => j2l_unroll a b alo blo bhi u t j hu
    have hvt : j2l a b alo blo bhi (t + 1) j ≤ t + 1 :=
      j2l_le_t a b alo blo bhi (t + 1) j
    apply j2l_build
    · omega
    · omega
    · intro u hu
      obtain ⟨hut, huj, hcc⟩ := hU u hu
      have e1 : (alo + t) - u = alo + (t - u) := by omega
      rw [e1]
      obtain ⟨h1, h2, h3, h4, h5⟩ := hcc
      have hlt : alo + (t - u) < j - u := by omega
      refine ⟨by omega, by omega, by omega, by rw [hab], h5⟩

/-- Membership in the inner loop position list is exactly the newj2len
entry condition. -/
lemma mem_jsList (a b : List Char) (blo bhi i j : Nat) :
    j ∈ jsList a b blo bhi i ↔ condNew a b blo bhi i j := by
  unfold jsList
  constructor
  · intro hmem
    rw [List.mem_filter] at hmem
    obtain ⟨hmem1, hcond2⟩ := hmem
    unfold b2jList at hmem1
    by_cases hp : popularB b (a.getD i padChar) = true
    · rw [if_pos hp] at hmem1
      exact absurd hmem1 (List.not_mem_nil _)
    · rw [if_neg hp] at hmem1
      rw [List.mem_filter, List.mem_range] at hmem1
      obtain ⟨hj_len, hbeq⟩ := hmem1
      simp only [Bool.and_eq_true, decide_eq_true_eq] at hcond2
      refine ⟨hj_len, hcond2.1, hcond2.2, by simpa using hbeq, ?_⟩
      simpa using hp
  · intro hc
    obtain ⟨h1, h2, h3, h4, h5⟩ := hc
    rw [List.mem_filter]
    constructor
    · unfold b2jList
      rw [if_neg (by rw [h5]; exact Bool.false_ne_true)]
      rw [List.mem_filter, List.mem_range]
      exact ⟨h1, by simpa using h4⟩
    · simp [h2, h3]

/-- The inner loop position list is strictly ascending. -/
lemma jsList_sorted (a b : List Char) (blo bhi i : Nat) :
    (jsList a b blo bhi i).Pairwise (· < ·) := by
  unfold jsList b2jList
  split
  · simp
  · exact ((List.pairwise_lt_range _).filter _).filter _

/-- At a position satisfying the entry condition, the inner loop value
k = j2len.get(j - 1, 0) + 1 is the next chain value. -/
lemma innerK_eq (a b : List Char) (alo blo bhi t j : Nat)
    (hc : condNew a b blo bhi (alo + t) j) :
    (if j = 0 then 0 else j2l a b alo blo bhi t (j - 1)) + 1 =
    j2l a b alo blo bhi (t + 1) j := by
  simp only [j2l, if_pos hc]

/-- Invariant delivered by the inner loop on aligned identical slices:
the best block stays diagonal and within bounds, its size never
decreases, it dominates every earlier diagonal value, and after the loop
it also dominates the diagonal value of the current iteration. -/
def innerPost (a b : List Char) (alo blo ahi bhi t : Nat) (st st' : Best) : Prop :=
  st'.besti = st'.bestj ∧ alo ≤ st'.besti ∧ st'.besti + st'.bestsize ≤ ahi ∧
  st.bestsize ≤ st'.bestsize ∧
  (∀ m, alo ≤ m → m < alo + t → dv a b alo blo bhi m ≤ st'.bestsize) ∧
  dv a b alo blo bhi (alo + t) ≤ st'.bestsize

/-- Inner loop invariant on aligned identical slices: every off-diagonal
candidate is dominated by an earlier diagonal candidate (strictly earlier
iteration when its position is below the diagonal, same iteration and
earlier position otherwise), so the strict improvement test keeps the best
block diagonal. -/
lemma innerFold_inv (a b : List Char) (alo blo ahi bhi t : Nat)
    (hab : a = b) (hblo : blo = alo) (ht : alo + t < ahi) :
    ∀ (S : List Nat) (st : Best),
      S.Pairwise (· < ·) →
      (∀ j ∈ S, condNew a b blo bhi (alo + t) j) →
      st.besti = st.bestj →
      alo ≤ st.besti →
      st.besti + st.bestsize ≤ ahi →
      (∀ m, alo ≤ m → m < alo + t → dv a b alo blo bhi m ≤ st.bestsize) →
      ((alo + t) ∈ S ∨ dv a b alo blo bhi (alo + t) ≤ st.bestsize) →
      innerPost a b alo blo ahi bhi t st
        (S.foldl (innerStep (alo + t) (j2l a b alo blo bhi t)) st) := by
  intro S
  induction S with
  | nil =>
    intro st _ _ hdiag hlo hhi hm hi
    rw [List.foldl_nil]
    refine ⟨hdiag, hlo, hhi, le_refl _, hm, ?_⟩
    rcases hi with h | h
    · exact absurd h (List.not_mem_nil _)
    · exact h
  | cons j S' ih =>
    intro st hsorted hmem hdiag hlo hhi hm hi
    rw [List.foldl_cons]
    have hcj : condNew a b blo bhi (alo + t) j := hmem j (List.mem_cons_self _ _)
    have hk : (if j = 0 then 0 else j2l a b alo blo bhi t (j - 1)) + 1 =
        j2l a b alo blo bhi (t + 1) j := innerK_eq a b alo blo bhi t j hcj
    have hsorted' : S'.Pairwise (· < ·) := hsorted.of_cons
    have hS'gt : ∀ x ∈ S', j < x :=
      fun x hx => (List.pairwise_cons.mp hsorted).1 x hx
    have hmem' : ∀ x ∈ S', condNew a b blo bhi (alo + t) x :=
      fun x hx => hmem x (List.mem_cons_of_mem _ hx)
    have hstep : innerStep (alo + t) (j2l a b alo blo bhi t) st j =
        if st.bestsize < j2l a b alo blo bhi (t + 1) j then
          ⟨alo + t + 1 - j2l a b alo blo bhi (t + 1) j,
           j + 1 - j2l a b alo blo bhi (t + 1) j,
           j2l a b alo blo bhi (t + 1) j⟩
        else st := by
      simp only [innerStep, hk]
    have hkv_le : j2l a b alo blo bhi (t + 1) j ≤ t + 1 :=
      j2l_le_t a b alo blo bhi (t + 1) j
    by_cases hji : j = alo + t
    · have hdv_eq : dv a b alo blo bhi (alo + t) =
          j2l a b alo blo bhi (t + 1) j := by
        rw [hji]
        unfold dv
        congr 1
        omega
      by_cases hupd : st.bestsize < j2l a b alo blo bhi (t + 1) j
      · rw [hstep, if_pos hupd]
        have hpost := ih ⟨alo + t + 1 - j2l a b alo blo bhi (t + 1) j,
            j + 1 - j2l a b alo blo bhi (t + 1) j,
            j2l a b alo blo bhi (t + 1) j⟩ hsorted' hmem'
          (by simp only []; rw [hji])
          (by simp only []; omega)
          (by simp only []; omega)
          (fun m hm1 hm2 => le_trans (hm m hm1 hm2) (le_of_lt hupd))
          (Or.inr (by simp only []; omega))
        obtain ⟨p1, p2, p3, p4, p5, p6⟩ := hpost
        exact ⟨p1, p2, p3, le_trans (le_of_lt hupd) p4, p5, p6⟩
      · rw [hstep, if_neg hupd]
        exact ih st hsorted' hmem' hdiag hlo hhi hm (Or.inr (by omega))
    · have hkle : j2l a b alo blo bhi (t + 1) j ≤ st.bestsize := by
        rcases Nat.lt_or_ge j (alo + t) with hlt | hge
        · have h1 := j2l_le_diag_lt a b alo blo bhi hab hblo t j (le_of_lt hlt)
          have halo_j : alo ≤ j := by
            have := hcj.2.1
            omega
          exact le_trans h1 (hm j halo_j hlt)
        · have hgt : alo + t < j := by omega
          have h1 := j2l_le_diag_gt a b alo blo bhi hab hblo t j hgt
          have hdv_eq : dv a b alo blo bhi (alo + t) =
              j2l a b alo blo bhi (t + 1) (alo + t) := by
            unfold dv
            congr 1
            omega
          rcases hi with hmem_i | hle_i
          · rcases List.mem_cons.mp hmem_i with h | h
            · omega
            · have := hS'gt _ h
              omega
          · rw [hdv_eq] at hle_i
            exact le_trans h1 hle_i
      rw [hstep, if_neg (by omega)]
      apply ih st hsorted' hmem' hdiag hlo hhi hm
      rcases hi with hmem_i | hle_i
      · rcases List.mem_cons.mp hmem_i with h | h
        · exact absurd h.symm hji
        · exact Or.inl h
      · exact Or.inr hle_i

/-- The main double loop truncated to its first n outer iterations; the
full loop is the case n = ahi - alo. -/
def mainBestAux (a b : List Char) (alo blo bhi : Nat) (n : Nat) : Best :=
  (List.range n).foldl
    (fun st t => innerFold a b blo bhi (alo + t) (j2l a b alo blo bhi t) st)
    ⟨alo, blo, 0⟩

lemma mainBest_eq_aux (a b : List Char) (alo ahi blo bhi : Nat) :
    mainBest a b alo ahi blo bhi = mainBestAux a b alo blo bhi (ahi - alo) := rfl

/-- On aligned identical slices the main loop keeps the best block
diagonal and in bounds, and its size dominates every diagonal chain value
seen so far. -/
lemma mainBestAux_diag (a b : List Char) (alo blo ahi bhi : Nat)
    (hab : a = b) (hblo : blo = alo) :
    ∀ n, alo + n ≤ ahi →
      (mainBestAux a b alo blo bhi n).besti = (mainBestAux a b alo blo bhi n).bestj ∧
      alo ≤ (mainBestAux a b alo blo bhi n).besti ∧
      (mainBestAux a b alo blo bhi n).besti +
        (mainBestAux a b alo blo bhi n).bestsize ≤ ahi ∧
      (∀ m, alo ≤ m → m < alo + n →
        dv a b alo blo bhi m ≤ (mainBestAux a b alo blo bhi n).bestsize) := by
  intro n
  induction n with
  | zero =>
    intro h
    refine ⟨hblo.symm, le_refl _, ?_, ?_⟩
    · show alo + 0 ≤ ahi
      omega
    · intro m h1 h2
      omega
  | succ n ih =>
    intro hn
    have hstep : mainBestAux a b alo blo bhi (n + 1) =
        innerFold a b blo bhi (alo + n) (j2l a b alo blo bhi n)
          (mainBestAux a b alo blo bhi n) := by
      unfold mainBestAux
      rw [List.range_succ, List.foldl_append, List.foldl_cons, List.foldl_nil]
    obtain ⟨hdiag, hlo, hhi, hm⟩ := ih (by omega)
    have hpost := innerFold_inv a b alo blo ahi bhi n hab hblo (by omega)
      (jsList a b blo bhi (alo + n)) (mainBestAux a b alo blo bhi n)
      (jsList_sorted a b blo bhi (alo + n))
      (fun j hj => (mem_jsList a b blo bhi (alo + n) j).mp hj)
      hdiag hlo hhi hm
      ?_
    · rw [hstep]
      unfold innerFold at hpost ⊢
      obtain ⟨p1, p2, p3, _, p5, p6⟩ := hpost
      refine ⟨p1, p2, p3, ?_⟩
      intro m h1 h2
      rcases Nat.lt_or_ge m (alo + n) with h | h
      · exact p5 m h1 h
      · have hme : m = alo + n := by omega
        rw [hme]
        exact p6
    · by_cases hcc : condNew a b blo bhi (alo + n) (alo + n)
      · exact Or.inl ((mem_jsList a b blo bhi (alo + n) (alo + n)).mpr hcc)
      · refine Or.inr ?_
        have hdv0 : dv a b alo blo bhi (alo + n) = 0 := by
          unfold dv
          rw [show alo + n + 1 - alo = n + 1 from by omega]
          simp only [j2l, if_neg hcc]
        rw [hdv0]
        exact Nat.zero_le _

/-- First extension loop on aligned identical slices: a diagonal block is
pushed all the way back to alo. -/
lemma extendBackNJ_diag (a b : List Char) (alo blo : Nat)
    (hab : a = b) (hblo : blo = alo) :
    ∀ f bi k, alo ≤ bi → bi - alo ≤ f →
      extendBackNJ a b alo blo f ⟨bi, bi, k⟩ =
        ⟨alo, alo, k + (bi - alo)⟩ := by
  intro f
  induction f with
  | zero =>
    intro bi k h1 h2
    have he : bi = alo := by omega
    subst he
    simp [extendBackNJ]
  | succ f ih =>
    intro bi k h1 h2
    simp only [extendBackNJ]
    by_cases hbi : alo < bi
    · rw [if_pos ⟨hbi, by omega, rfl, by rw [hab]⟩]
      rw [ih (bi - 1) (k + 1) (by omega) (by omega)]
      congr 1 <;> omega
    · rw [if_neg (fun h => absurd h.1 hbi)]
      congr 1 <;> omega

/-- Second extension loop on aligned identical slices: a diagonal block is
pushed all the way forward to ahi. -/
lemma extendFwdNJ_diag (a b : List Char) (ahi bhi : Nat)
    (hab : a = b) (hbhi : bhi = ahi) :
    ∀ f bi k, bi + k ≤ ahi → ahi - (bi + k) ≤ f →
      extendFwdNJ a b ahi bhi f ⟨bi, bi, k⟩ =
        ⟨bi, bi, k + (ahi - (bi + k))⟩ := by
  intro f
  induction f with
  | zero =>
    intro bi k h1 h2
    simp only [extendFwdNJ]
    congr 1 <;> omega
  | succ f ih =>
    intro bi k h1 h2
    simp only [extendFwdNJ]
    by_cases hlt : bi + k < ahi
    · rw [if_pos ⟨hlt, by omega, rfl, by rw [hab]⟩]
      rw [ih bi (k + 1) (by omega) (by omega)]
      congr 1 <;> omega
    · rw [if_neg (fun h => absurd h.1 hlt)]
      congr 1 <;> omega

/-- The second extension loop does nothing when the block already reaches
ahi. -/
lemma extendFwdNJ_noop (a b : List Char) (ahi bhi : Nat) :
    ∀ f st, ¬(st.besti + st.bestsize < ahi) →
      extendFwdNJ a b ahi bhi f st = st := by
  intro f st hng
  cases f with
  | zero => rfl
  | succ f =>
    simp only [extendFwdNJ]
    rw [if_neg]
    intro h
    exact hng h.1

/-- The third extension loop never fires: the junk set is empty. -/
lemma extendBackJ_noop (a b : List Char) (alo blo : Nat) :
    ∀ f st, extendBackJ a b alo blo f st = st := by
  intro f st
  cases f with
  | zero => rfl
  | succ f =>
    simp only [extendBackJ]
    rw [if_neg]
    rintro ⟨-, -, h3, -⟩
    simp [bjunk] at h3

/-- The fourth extension loop never fires: the junk set is empty. -/
lemma extendFwdJ_noop (a b : List Char) (ahi bhi : Nat) :
    ∀ f st, extendFwdJ a b ahi bhi f st = st := by
  intro f st
  cases f with
  | zero => rfl
  | succ f =>
    simp only [extendFwdJ]
    rw [if_neg]
    rintro ⟨-, -, h3, -⟩
    simp [bjunk] at h3

/-- On aligned identical slices find_longest_match returns the whole
slice: the main loop yields a diagonal block and the two non-junk
extension loops stretch it to the full slice. -/
lemma flm_self (s : List Char) (alo ahi : Nat) :
    find_longest_match s s alo ahi alo ahi = ⟨alo, alo, ahi - alo⟩ := by
  by_cases hle : alo ≤ ahi
  · obtain ⟨hdiag, hlo, hhi, -⟩ :=
      mainBestAux_diag s s alo alo ahi ahi rfl rfl (ahi - alo) (by omega)
    rw [← mainBest_eq_aux] at hdiag hlo hhi
    simp only [find_longest_match]
    rcases hst0 : mainBest s s alo ahi alo ahi with ⟨bi, bj, k⟩
    rw [hst0] at hdiag hlo hhi
    dsimp only at hdiag hlo hhi
    subst hdiag
    dsimp only
    rw [extendBackNJ_diag s s alo alo rfl rfl bi bi k hlo (by omega)]
    rw [extendFwdNJ_diag s s ahi ahi rfl rfl ahi alo (k + (bi - alo))
      (by omega) (by omega)]
    rw [extendBackJ_noop, extendFwdJ_noop]
    congr 1 <;> omega
  · have hm0 : mainBest s s alo ahi alo ahi = ⟨alo, alo, 0⟩ := by
      unfold mainBest
      rw [show ahi - alo = 0 from by omega]
      rfl
    simp only [find_longest_match]
    rw [hm0]
    dsimp only
    rw [extendBackNJ_diag s s alo alo rfl rfl alo alo 0 (le_refl _) (by omega)]
    rw [extendFwdNJ_noop s s ahi ahi _ _ (by dsimp only; omega)]
    rw [extendBackJ_noop, extendFwdJ_noop]
    congr 1 <;> omega

/-- The block-sum of identical sequences over aligned slices is the whole
slice length, for any sufficient fuel. -/
lemma matchSumF_self (s : List Char) :
    ∀ fuel alo ahi, ahi - alo < fuel →
      matchSumF s s fuel alo ahi alo ahi = ahi - alo := by
  intro fuel
  induction fuel with
  | zero =>
    intro alo ahi h
    exact absurd h (by omega)
  | succ fuel ih =>
    intro alo ahi h
    simp only [matchSumF, flm_self]
    by_cases h0 : ahi - alo = 0
    · rw [if_pos h0]
      omega
    · rw [if_neg h0]
      have e : alo + (ahi - alo) = ahi := by omega
      rw [e]
      have h1 : matchSumF s s fuel alo alo alo alo = 0 := by
        have := ih alo alo (by omega)
        omega
      have h2 : matchSumF s s fuel ahi ahi ahi ahi = 0 := by
        have := ih ahi ahi (by omega)
        omega
      omega

/-- M equals the length for identical sequences. -/
lemma matchSum_self (s : List Char) : matchSum s s = s.length := by
  unfold matchSum
  have := matchSumF_self s (s.length + s.length + 1) 0 s.length (by omega)
  omega

/-- ratio() of two identical sequences is 1. -/
lemma ratioQ_self (s : List Char) : ratioQ s s = 1 := by
  unfold ratioQ
  by_cases h : s.length + s.length = 0
  · rw [if_pos h]
  · rw [if_neg h, matchSum_self]
    have hn : s.length ≠ 0 := by omega
    have hq : ((s.length + s.length : Nat) : ℚ) = 2 * (s.length : ℚ) := by
      push_cast
      ring
    rw [hq]
    have h2 : (2 : ℚ) * (s.length : ℚ) ≠ 0 := by
      have hc : (s.length : ℚ) ≠ 0 := Nat.cast_ne_zero.mpr hn
      positivity
    exact div_self h2

/-- A list element read inside the range is a member. -/
lemma getD_mem_of_lt (l : List Char) (i : Nat) (d : Char) (h : i < l.length) :
    l.getD i d ∈ l := by
  rw [List.getD_eq_getElem?_getD, List.getElem?_eq_getElem h]
  simp

/-- With no character in common there is no inner loop position at all. -/
lemma jsList_nil_of_disjoint (a b : List Char)
    (hd : ∀ c ∈ a, c ∉ b) (i : Nat) (hi : i < a.length) (blo bhi : Nat) :
    jsList a b blo bhi i = [] := by
  rw [List.eq_nil_iff_forall_not_mem]
  intro j hj
  obtain ⟨h1, _, _, h4, _⟩ := (mem_jsList a b blo bhi i j).mp hj
  have hmb : b.getD j padChar ∈ b := getD_mem_of_lt b j padChar h1
  have hma : a.getD i padChar ∈ a := getD_mem_of_lt a i padChar hi
  rw [h4] at hmb
  exact hd _ hma hmb

/-- With every inner loop list empty the main loop returns its initial
best block. -/
lemma mainBestAux_nil (a b : List Char) (alo blo bhi : Nat) :
    ∀ n, (∀ t, t < n → jsList a b blo bhi (alo + t) = []) →
      mainBestAux a b alo blo bhi n = ⟨alo, blo, 0⟩ := by
  intro n
  induction n with
  | zero =>
    intro _
    rfl
  | succ n ih =>
    intro hnil
    unfold mainBestAux
    rw [List.range_succ, List.foldl_append, List.foldl_cons, List.foldl_nil]
    have hfold : (List.range n).foldl
        (fun st t => innerFold a b blo bhi (alo + t) (j2l a b alo blo bhi t) st)
        ⟨alo, blo, 0⟩ = ⟨alo, blo, 0⟩ := by
      have := ih (fun t ht => hnil t (by omega))
      unfold mainBestAux at this
      exact this
    rw [hfold]
    unfold innerFold
    rw [hnil n (by omega), List.foldl_nil]

/-- With no character in common find_longest_match over the full
sequences finds nothing. -/
lemma flm_disjoint (a b : List Char) (hd : ∀ c ∈ a, c ∉ b) :
    find_longest_match a b 0 a.length 0 b.length = ⟨0, 0, 0⟩ := by
  have hmain : mainBest a b 0 a.length 0 b.length = ⟨0, 0, 0⟩ := by
    rw [mainBest_eq_aux]
    exact mainBestAux_nil a b 0 0 b.length (a.length - 0)
      (fun t ht => jsList_nil_of_disjoint a b hd (0 + t) (by omega) 0 b.length)
  simp only [find_longest_match]
  rw [hmain]
  dsimp only
  have hback : extendBackNJ a b 0 0 0 ⟨0, 0, 0⟩ = ⟨0, 0, 0⟩ := rfl
  rw [hback]
  have hfwd : extendFwdNJ a b a.length b.length a.length ⟨0, 0, 0⟩ = ⟨0, 0, 0⟩ := by
    cases hf : a.length with
    | zero => rfl
    | succ n =>
      simp only [extendFwdNJ]
      rw [if_neg]
      rintro ⟨ha, hb, -, hc⟩
      have hmb : b.getD 0 padChar ∈ b := getD_mem_of_lt b 0 padChar (by omega)
      have hma : a.getD 0 padChar ∈ a := getD_mem_of_lt a 0 padChar (by omega)
      rw [hc] at hma
      exact hd _ hma hmb
  rw [hfwd]
  rw [extendBackJ_noop, extendFwdJ_noop]

/-- M is 0 for sequences with no character in common. -/
lemma matchSum_disjoint (a b : List Char) (hd : ∀ c ∈ a, c ∉ b) :
    matchSum a b = 0 := by
  unfold matchSum
  simp only [matchSumF, flm_disjoint a b hd]
  rfl

/-- ratio() of two sequences with no common character and not both empty
is 0. -/
lemma ratioQ_disjoint (a b : List Char) (hd : ∀ c ∈ a, c ∉ b)
    (hne : a.length + b.length ≠ 0) : ratioQ a b = 0 := by
  unfold ratioQ
  rw [if_neg hne, matchSum_disjoint a b hd]
  simp

/-- Claim C6: whenever the comparison endpoint returns a response, its
similarity_score is 1 when the two contents are identical strings, 0 when
they are completely disjoint (no character in common, not both empty),
and its differences list never exceeds 20 entries whatever the diff
produced. -/
theorem comparison_similarity_and_diff_bound (env : Env)
    (udiff : String → String → List String) (message : String)
    (r : ComparisonResponse)
    (hr : compare_responses env udiff message = .ok r) :
    (r.deepseek_content = r.moonshot_content → r.similarity_score = 1) ∧
    ((∀ c ∈ r.deepseek_content.data, c ∉ r.moonshot_content.data) →
      (r.deepseek_content.data ≠ [] ∨ r.moonshot_content.data ≠ []) →
      r.similarity_score = 0) ∧
    r.differences.length ≤ 20 := by
  unfold compare_responses at hr
  rcases hpm : process_message env message with e | result
  · rw [hpm] at hr
    exact Except.noConfusion hr
  · simp only [hpm] at hr
    rcases hdl : result.model_outputs.lookup "deepseek" with _ | dOut
    · simp only [hdl] at hr
      exact Except.noConfusion hr
    · simp only [hdl] at hr
      rcases hml : result.model_outputs.lookup "moonshot" with _ | mOut
      · simp only [hml] at hr
        exact Except.noConfusion hr
      · simp only [hml, Except.ok.injEq] at hr
        subst hr
        refine ⟨?_, ?_, ?_⟩
        · intro heq
          dsimp only at heq ⊢
          rw [heq]
          exact ratioQ_self _
        · intro hdisj hne
          dsimp only at hdisj hne ⊢
          apply ratioQ_disjoint _ _ hdisj
          intro h0
          rcases hne with hca | hcb
          · exact hca (List.length_eq_zero.mp (by omega))
          · exact hcb (List.length_eq_zero.mp (by omega))
        · dsimp only
          unfold diffKept
          exact List.length_take_le _ _

theorem comparison_similarity_and_diff_bound_witness :
    ∃ r, compare_responses envOk (fun _ _ => []) "hi" = .ok r ∧
      r.differences.length ≤ 20 :=
  ⟨_, rfl,
   (comparison_similarity_and_diff_bound envOk (fun _ _ => []) "hi" _ rfl).2.2⟩

/-- Claim C10: when the orchestrator takes the deepseek-failure fallback
path, its result has no deepseek entry, so the comparison endpoint hits
the KeyError branch and fails with HTTP 500 instead of returning a
ComparisonResponse. -/
theorem compare_500_on_fallback_path (env : Env)
    (udiff : String → String → List String) (message e f : String)
    (hds : env.deepseek message = .error e) (hms : env.moonshot message = .ok f) :
    compare_responses env udiff message = .error 500 := by
  simp only [compare_responses, process_message, hds, hms]
  rfl

theorem compare_500_on_fallback_path_witness :
    compare_responses envDsFail (fun _ _ => []) "hi" = .error 500 :=
  compare_500_on_fallback_path envDsFail (fun _ _ => []) "hi" "boom"
    "hi refined" rfl rfl
